import Mathlib

/-!
Shallow embedding of `weightedrand.go` (package weightedrand, generic
version): the `Choice`/`Chooser` data model, `NewChooser` construction with
its overflow / no-valid-choices checks, the manually inlined binary search
`searchInts`, and the draw operation `Pick` with the random value `r`
passed in explicitly (in Go, `r = rand.Int63n(c.max) + 1`).

Weights in Go have a generic integer type `W` (any signed or unsigned
integer of width at most 64 bits).  A value of any such type is modelled by
its mathematical integer value, which always lies in `[-2^63, 2^64)`.  The
Go conversions `int64(w)` and `uint64(w)` (sign- or zero-extension followed
by two's-complement truncation to 64 bits) are modelled by `toInt64` and
`toUInt64` below; they agree with Go on every representable value.

`sort.Slice(choices, Weight <)` sorts ascending by weight with no stability
guarantee; the embedding uses a deterministic stable insertion sort, one of
the permitted outcomes.
-/

namespace Weightedrand

/-- `Choice` from weightedrand.go: an (item, weight) pair.  The weight field
holds the mathematical value of the Go generic integer weight. -/
structure Choice (α : Type) where
  Item : α
  Weight : Int
deriving DecidableEq, Repr

/-- The two possible errors returned by `NewChooser`
(`errWeightOverflow` and `errNoValidChoices`). -/
inductive Err where
  | overflow
  | noValidChoices
deriving DecidableEq, Repr

/-- `Chooser` from weightedrand.go: sorted data, cumulative totals, max. -/
structure Chooser (α : Type) where
  data : List (Choice α)
  totals : List Int
  max : Int
deriving DecidableEq, Repr

/-- `maxInt = math.MaxInt64`. -/
def maxInt : Int := 2 ^ 63 - 1

/-- The Go conversion `int64(w)` for a value `w` of any integer type of
width at most 64: reduction modulo `2^64` into `[-2^63, 2^63)`. -/
def toInt64 (w : Int) : Int := (w + 2 ^ 63) % 2 ^ 64 - 2 ^ 63

/-- The Go conversion `uint64(w)`: reduction modulo `2^64` into `[0, 2^64)`. -/
def toUInt64 (w : Int) : Int := w % 2 ^ 64

/-- Insert a choice into a weight-sorted list, keeping it sorted. -/
def insertW {α : Type} (c : Choice α) : List (Choice α) → List (Choice α)
  | [] => [c]
  | b :: l => if c.Weight ≤ b.Weight then c :: b :: l else b :: insertW c l

/-- The `sort.Slice(choices, ...Weight < ...Weight)` call in `NewChooser`,
modelled by a stable insertion sort ascending by weight. -/
def sortW {α : Type} : List (Choice α) → List (Choice α)
  | [] => []
  | c :: l => insertW c (sortW l)

/-- The accumulation loop of `NewChooser`: walks the sorted choices, skips
entries whose `int64`-converted weight is negative (their totals slot keeps
the zero value from `make`), errors (`none`) on either overflow check, and
otherwise records the running total.  Returns the totals slice and the
final running total. -/
def buildTotals {α : Type} : List (Choice α) → Int → Option (List Int × Int)
  | [], rt => some ([], rt)
  | c :: cs, rt =>
    if toInt64 c.Weight < 0 then
      match buildTotals cs rt with
      | none => none
      | some (ts, rt') => some (0 :: ts, rt')
    else if maxInt ≤ toUInt64 c.Weight then
      none
    else if maxInt - rt ≤ toInt64 c.Weight then
      none
    else
      match buildTotals cs (rt + toInt64 c.Weight) with
      | none => none
      | some (ts, rt') => some ((rt + toInt64 c.Weight) :: ts, rt')

/-- `NewChooser` from weightedrand.go.  Mirrors the Go signature
`(*Chooser, error)` as a pair of options: error paths return
`(nil, err)`, success returns `(&Chooser{...}, nil)`. -/
def NewChooser {α : Type} (choices : List (Choice α)) :
    Option (Chooser α) × Option Err :=
  let sorted := sortW choices
  match buildTotals sorted 0 with
  | none => (none, some Err.overflow)
  | some (ts, rt) =>
    if rt < 1 then (none, some Err.noValidChoices)
    else (some ⟨sorted, ts, rt⟩, none)

/-- The loop of `searchInts`.  The Go midpoint `int(uint(i+j) >> 1)` equals
`(i + j) / 2` whenever `i + j < 2^64`, which holds for all reachable states
since `i, j ≤ len(a) ≤ MaxInt64` (see `goMid`); out-of-range reads
(never reachable from `searchInts`) are modelled by `getD` with default 0. -/
def searchLoop (a : List Int) (x : Int) (i j : Nat) : Nat :=
  if i < j then
    if a.getD ((i + j) / 2) 0 < x then searchLoop a x ((i + j) / 2 + 1) j
    else searchLoop a x i ((i + j) / 2)
  else i
termination_by j - i
decreasing_by
  · omega
  · omega

/-- `searchInts(a, x)` from weightedrand.go. -/
def searchInts (a : List Int) (x : Int) : Nat := searchLoop a x 0 a.length

/-- The Go midpoint computation `int(uint(i+j) >> 1)`: the sum wraps modulo
`2^64` in `uint` arithmetic and is then halved by the unsigned shift.  The
result is below `2^63`, so the final conversion back to `int` is the
identity and is not modelled separately. -/
def goMid (i j : Nat) : Nat := ((i + j) % 2 ^ 64) >>> 1

/-- `Pick` from weightedrand.go, with the randomly drawn value
`r = rand.Int63n(c.max) + 1` supplied as an argument.  The indexing
`c.data[i]` is modelled by the optional lookup: a `none` result corresponds
to an index-out-of-range panic in Go. -/
def Pick {α : Type} (c : Chooser α) (r : Int) : Option α :=
  (c.data[searchInts c.totals r]?).map Choice.Item

/-- The loop never moves the left bound below its starting point. -/
theorem searchLoop_ge_left (a : List Int) (x : Int) (i j : Nat) :
    i ≤ searchLoop a x i j := by
  induction i, j using searchLoop.induct a x with
  | case1 i j hij hlt ih =>
    rw [searchLoop, if_pos hij, if_pos hlt]
    omega
  | case2 i j hij hlt ih =>
    rw [searchLoop, if_pos hij, if_neg hlt]
    omega
  | case3 i j hij =>
    rw [searchLoop, if_neg hij]

/-- The loop never moves the right bound above its starting point. -/
theorem searchLoop_le_right (a : List Int) (x : Int) (i j : Nat) (h : i ≤ j) :
    searchLoop a x i j ≤ j := by
  induction i, j using searchLoop.induct a x with
  | case1 i j hij hlt ih =>
    rw [searchLoop, if_pos hij, if_pos hlt]
    exact ih (by omega)
  | case2 i j hij hlt ih =>
    rw [searchLoop, if_pos hij, if_neg hlt]
    have := ih (by omega)
    omega
  | case3 i j hij =>
    rw [searchLoop, if_neg hij]
    omega

/-- The loop result is either the initial right bound or an index at which
the array value is at least the target (the right bound is only ever moved
onto such an index).  Requires no sortedness. -/
theorem searchLoop_found (a : List Int) (x : Int) (i j : Nat) (h : i ≤ j) :
    searchLoop a x i j = j ∨ x ≤ a.getD (searchLoop a x i j) 0 := by
  induction i, j using searchLoop.induct a x with
  | case1 i j hij hlt ih =>
    rw [searchLoop, if_pos hij, if_pos hlt]
    exact ih (by omega)
  | case2 i j hij hlt ih =>
    rw [searchLoop, if_pos hij, if_neg hlt]
    rcases ih (by omega) with heq | hfound
    · right
      rw [heq]
      omega
    · right
      exact hfound
  | case3 i j hij =>
    rw [searchLoop, if_neg hij]
    left
    omega

/-- On a pointwise non-decreasing array, every index below the loop result
holds a value below the target, provided that already held below the
initial left bound. -/
theorem searchLoop_below (a : List Int) (x : Int) (i j : Nat)
    (hs : ∀ p q : Nat, p ≤ q → q < a.length → a.getD p 0 ≤ a.getD q 0)
    (h : i ≤ j) (hj : j ≤ a.length)
    (hpre : ∀ m, m < i → a.getD m 0 < x) :
    ∀ m, m < searchLoop a x i j → a.getD m 0 < x := by
  induction i, j using searchLoop.induct a x with
  | case1 i j hij hlt ih =>
    rw [searchLoop, if_pos hij, if_pos hlt]
    refine ih (by omega) hj ?_
    intro m hm
    rcases Nat.lt_or_ge m i with hmi | hmi
    · exact hpre m hmi
    · exact lt_of_le_of_lt (hs m ((i + j) / 2) (by omega) (by omega)) hlt
  | case2 i j hij hlt ih =>
    rw [searchLoop, if_pos hij, if_neg hlt]
    exact ih (by omega) (by omega) hpre
  | case3 i j hij =>
    rw [searchLoop, if_neg hij]
    exact hpre

/-- The lower-bound specification of `searchInts` on a pointwise
non-decreasing array: the result is at most the length, everything below
the result is below the target, and the result (if in bounds) is at least
the target. -/
theorem searchInts_spec (a : List Int) (x : Int)
    (hs : ∀ p q : Nat, p ≤ q → q < a.length → a.getD p 0 ≤ a.getD q 0) :
    searchInts a x ≤ a.length
    ∧ (∀ m, m < searchInts a x → a.getD m 0 < x)
    ∧ (searchInts a x < a.length → x ≤ a.getD (searchInts a x) 0) := by
  refine ⟨searchLoop_le_right a x 0 a.length (Nat.zero_le _),
    searchLoop_below a x 0 a.length hs (Nat.zero_le _) le_rfl (by omega), ?_⟩
  intro hlt
  rcases searchLoop_found a x 0 a.length (Nat.zero_le _) with heq | hfound
  · exact absurd heq (by unfold searchInts at hlt; omega)
  · exact hfound

/-- Any two indices satisfying the lower-bound specification for the same
array and target coincide. -/
theorem lower_bound_unique (a : List Int) (x : Int) (k₁ k₂ : Nat)
    (h₁ : k₁ ≤ a.length ∧ (∀ m, m < k₁ → a.getD m 0 < x)
      ∧ (k₁ < a.length → x ≤ a.getD k₁ 0))
    (h₂ : k₂ ≤ a.length ∧ (∀ m, m < k₂ → a.getD m 0 < x)
      ∧ (k₂ < a.length → x ≤ a.getD k₂ 0)) : k₁ = k₂ := by
  rcases h₁ with ⟨hl₁, hb₁, hf₁⟩
  rcases h₂ with ⟨hl₂, hb₂, hf₂⟩
  by_contra hne
  rcases Nat.lt_or_ge k₁ k₂ with hlt | hge
  · exact absurd (hf₁ (by omega)) (not_le.mpr (hb₂ k₁ hlt))
  · have hlt : k₂ < k₁ := by omega
    exact absurd (hf₂ (by omega)) (not_le.mpr (hb₁ k₂ hlt))

/-- C1: refuted at a concrete input.  For the uint64-weighted input
`{(10,1), (20,2), (30, 2^63)}` `NewChooser` succeeds with `max = 3`, yet the
entry with positive weight `2^63` is returned for none of the three values
`r ∈ [1, 3]` of the uniform draw: its draw count is 0, not its weight, and
its draw probability is 0, not `weight/total`.  (The `int64` conversion in
the loop turns `2^63` negative, so the entry is skipped instead of being
rejected as overflow as the repository's own uint64 tests expect.) -/
theorem pick_count_of_positive_entry_is_zero :
    NewChooser [Choice.mk 10 1, Choice.mk 20 2, Choice.mk 30 (2 ^ 63)]
      = (some ⟨[⟨10, 1⟩, ⟨20, 2⟩, ⟨30, 2 ^ 63⟩], [1, 3, 0], 3⟩, none)
    ∧ (0 : Int) < 2 ^ 63
    ∧ Pick (⟨[⟨10, 1⟩, ⟨20, 2⟩, ⟨30, 2 ^ 63⟩], [1, 3, 0], 3⟩ : Chooser Nat) 1 ≠ some 30
    ∧ Pick (⟨[⟨10, 1⟩, ⟨20, 2⟩, ⟨30, 2 ^ 63⟩], [1, 3, 0], 3⟩ : Chooser Nat) 2 ≠ some 30
    ∧ Pick (⟨[⟨10, 1⟩, ⟨20, 2⟩, ⟨30, 2 ^ 63⟩], [1, 3, 0], 3⟩ : Chooser Nat) 3 ≠ some 30 :=
  ⟨by decide, by decide,
   by simp [Pick, searchInts, searchLoop],
   by simp [Pick, searchInts, searchLoop],
   by simp [Pick, searchInts, searchLoop]⟩

/-- C2: refuted at a concrete input.  For the uint64-weighted input
`{(5,1), (6, 2^63)}` `NewChooser` succeeds with `max = 1`, but for the only
possible draw `r = 1` the search over the totals `[1, 0]` returns index 2,
which equals the length of the stored entries: `c.data[2]` is an
out-of-bounds access (an index-out-of-range panic in Go, `none` in the
embedding), contradicting the repository's own fuzz test. -/
theorem pick_index_out_of_bounds :
    NewChooser [Choice.mk 5 1, Choice.mk 6 (2 ^ 63)]
      = (some ⟨[⟨5, 1⟩, ⟨6, 2 ^ 63⟩], [1, 0], 1⟩, none)
    ∧ searchInts [1, 0] 1 = 2
    ∧ ([(⟨5, 1⟩ : Choice Nat), ⟨6, 2 ^ 63⟩]).length = 2
    ∧ Pick (⟨[⟨5, 1⟩, ⟨6, 2 ^ 63⟩], [1, 0], 1⟩ : Chooser Nat) 1 = none :=
  ⟨by decide,
   by simp [searchInts, searchLoop],
   by decide,
   by simp [Pick, searchInts, searchLoop]⟩

/-- C3: refuted at concrete inputs, in both directions of the iff.
(1) The int64 weights `{MaxInt64 - 1, 1}` sum to exactly `MaxInt64`, the
accumulator's maximum, yet `NewChooser` fails with `Overflow` (the headroom
check uses `<=` instead of `<`).  (2) The single uint64 weight
`MaxUint64 = 2^64 - 1` exceeds the accumulator's range, yet `NewChooser`
does not fail with `Overflow`: the `int64` conversion makes the weight
negative so the entry is skipped and the build fails with `NoValidChoices`,
contradicting the repository's own test
"single uint64 equalling MaxUint64" which expects `errWeightOverflow`. -/
theorem overflow_iff_fails_both_directions :
    NewChooser [Choice.mk 1 (2 ^ 63 - 2), Choice.mk 2 1]
      = ((none : Option (Chooser Nat)), some Err.overflow)
    ∧ (2 ^ 63 - 2 + 1 : Int) = maxInt
    ∧ NewChooser [Choice.mk 1 (2 ^ 64 - 1)]
      = ((none : Option (Chooser Nat)), some Err.noValidChoices) := by
  decide

/-- C4: refuted at a concrete input.  The single uint64 weight `2^63` is
positive (the input is neither empty, nor all-zero, nor all-negative), and
`NewChooser` does not fail with `Overflow`, yet it fails with
`NoValidChoices`: the `int64` conversion makes the weight negative so the
only entry is skipped and the running total stays 0. -/
theorem no_valid_choices_on_positive_weight :
    NewChooser [Choice.mk 1 (2 ^ 63)]
      = ((none : Option (Chooser Nat)), some Err.noValidChoices)
    ∧ (0 : Int) < 2 ^ 63 := by
  decide

/-- C5: refuted at a concrete input.  For the uint64-weighted input
`{(5,1), (6, 2^63)}` `NewChooser` succeeds, but the totals `[1, 0]` are not
monotonically non-decreasing (`totals[0] = 1 > 0 = totals[1]`) and the
stored `max = 1` differs from the last element `0` of the totals. -/
theorem chooser_invariant_violated :
    NewChooser [Choice.mk 8 1, Choice.mk 9 (2 ^ 63)]
      = (some ⟨[⟨8, 1⟩, ⟨9, 2 ^ 63⟩], [1, 0], 1⟩, none)
    ∧ ([(1 : Int), 0].getD 1 0 < [(1 : Int), 0].getD 0 0)
    ∧ [(1 : Int), 0].getD ([(1 : Int), 0].length - 1) 0 ≠ 1 := by
  decide

/-- C9: construction is atomic.  Whenever `NewChooser` returns an error
(its second component is `some e`), its first component — the `*Chooser`
pointer in Go — is `none` (nil): no partially constructed `Chooser` is ever
handed to the caller. -/
theorem newChooser_error_returns_no_chooser {α : Type}
    (choices : List (Choice α)) (e : Err)
    (h : (NewChooser choices).2 = some e) : (NewChooser choices).1 = none := by
  simp only [NewChooser] at h ⊢
  rcases hb : buildTotals (sortW choices) 0 with _ | ⟨ts, rt⟩ <;>
    simp only [hb] at h ⊢
  by_cases hrt : rt < 1
  · simp only [if_pos hrt]
  · simp only [if_neg hrt] at h
    exact absurd h (by simp)

/-- Witness for C9 at the empty input, which fails with `NoValidChoices`. -/
theorem newChooser_error_returns_no_chooser_witness :
    (NewChooser ([] : List (Choice Nat))).2 = some Err.noValidChoices
    ∧ (NewChooser ([] : List (Choice Nat))).1 = none :=
  ⟨by decide, newChooser_error_returns_no_chooser [] Err.noValidChoices (by decide)⟩

/-- C7: on a non-decreasing array `a`, `searchInts a x` returns the
smallest index `i` with `a[i] >= x`, and `len(a)` when no such index
exists (a standard lower-bound / insertion-point search). -/
theorem searchInts_is_lower_bound (a : List Int) (x : Int)
    (hs : ∀ p q : Nat, p ≤ q → q < a.length → a.getD p 0 ≤ a.getD q 0) :
    searchInts a x ≤ a.length
    ∧ (∀ m, m < searchInts a x → a.getD m 0 < x)
    ∧ (searchInts a x < a.length → x ≤ a.getD (searchInts a x) 0)
    ∧ (∀ m, m < a.length → x ≤ a.getD m 0 → searchInts a x ≤ m) := by
  obtain ⟨hle, hbelow, hfound⟩ := searchInts_spec a x hs
  refine ⟨hle, hbelow, hfound, ?_⟩
  intro m hm hxm
  by_contra hcon
  exact absurd hxm (not_le.mpr (hbelow m (by omega)))

/-- Witness for C7 at `a = [2, 5, 5, 9]`, `x = 5`: the result is index 1,
the first of the two entries equal to 5. -/
theorem searchInts_is_lower_bound_witness :
    searchInts [2, 5, 5, 9] 5 ≤ ([2, 5, 5, 9] : List Int).length
    ∧ (∀ m, m < searchInts [2, 5, 5, 9] 5 → ([2, 5, 5, 9] : List Int).getD m 0 < 5)
    ∧ (searchInts [2, 5, 5, 9] 5 < ([2, 5, 5, 9] : List Int).length →
        5 ≤ ([2, 5, 5, 9] : List Int).getD (searchInts [2, 5, 5, 9] 5) 0)
    ∧ (∀ m, m < ([2, 5, 5, 9] : List Int).length →
        5 ≤ ([2, 5, 5, 9] : List Int).getD m 0 → searchInts [2, 5, 5, 9] 5 ≤ m) :=
  searchInts_is_lower_bound [2, 5, 5, 9] 5 (by
    intro p q hpq hq
    simp only [List.length_cons, List.length_nil] at hq
    interval_cases q <;> interval_cases p <;> decide)

/-- C10: the `searchInts` loop terminates on every array: on each iteration
with `i < j`, the midpoint `h = int(uint(i+j) >> 1)` (modelled by `goMid`,
whose wrap-around never fires since `i, j ≤ len(a) ≤ MaxInt64`) equals
`(i + j) / 2`, the loop steps to the interval `(h+1, j)` or `(i, h)`, and
the measure `j - i` strictly shrinks. -/
theorem searchLoop_interval_shrinks (a : List Int) (x : Int) (i j : Nat)
    (hij : i < j) (hj : j ≤ a.length) (hlen : a.length ≤ 2 ^ 63 - 1) :
    goMid i j = (i + j) / 2
    ∧ searchLoop a x i j =
        (if a.getD (goMid i j) 0 < x then searchLoop a x (goMid i j + 1) j
         else searchLoop a x i (goMid i j))
    ∧ (if a.getD (goMid i j) 0 < x then j - (goMid i j + 1) else goMid i j - i)
        < j - i := by
  have hmid : goMid i j = (i + j) / 2 := by
    have hlt : i + j < 2 ^ 64 := by omega
    simp only [goMid, Nat.shiftRight_eq_div_pow, Nat.mod_eq_of_lt hlt, pow_one]
  refine ⟨hmid, ?_, ?_⟩
  · rw [hmid]
    conv_lhs => rw [searchLoop, if_pos hij]
  · rw [hmid]
    split <;> omega

/-- Witness for C10 at `a = [0, 1]`, `x = 1`, `i = 0`, `j = 2`. -/
theorem searchLoop_interval_shrinks_witness :
    goMid 0 2 = (0 + 2) / 2
    ∧ searchLoop [0, 1] 1 0 2 =
        (if ([0, 1] : List Int).getD (goMid 0 2) 0 < 1 then
          searchLoop [0, 1] 1 (goMid 0 2 + 1) 2
         else searchLoop [0, 1] 1 0 (goMid 0 2))
    ∧ (if ([0, 1] : List Int).getD (goMid 0 2) 0 < 1 then 2 - (goMid 0 2 + 1)
       else goMid 0 2 - 0) < 2 - 0 :=
  searchLoop_interval_shrinks [0, 1] 1 0 2 (by decide) (by decide) (by norm_num)

theorem toInt64_eq_self {w : Int} (h1 : -(2 : Int) ^ 63 ≤ w) (h2 : w < 2 ^ 63) :
    toInt64 w = w := by
  unfold toInt64
  omega

theorem toInt64_pos_weight {w : Int} (h1 : -(2 : Int) ^ 63 ≤ w) (h2 : w < 2 ^ 64)
    (h : 1 ≤ toInt64 w) : 1 ≤ w := by
  unfold toInt64 at h
  omega

theorem mem_insertW {α : Type} {x c : Choice α} {l : List (Choice α)} :
    x ∈ insertW c l ↔ x = c ∨ x ∈ l := by
  induction l with
  | nil => simp [insertW]
  | cons b l ih =>
    simp only [insertW]
    split
    · simp [List.mem_cons]
    · simp only [List.mem_cons, ih]
      tauto

theorem pairwise_insertW {α : Type} {c : Choice α} {l : List (Choice α)}
    (h : l.Pairwise (fun a b => a.Weight ≤ b.Weight)) :
    (insertW c l).Pairwise (fun a b => a.Weight ≤ b.Weight) := by
  induction l with
  | nil => simp [insertW]
  | cons b l ih =>
    rcases List.pairwise_cons.mp h with ⟨hb, hl⟩
    simp only [insertW]
    split
    · refine List.Pairwise.cons ?_ (List.Pairwise.cons hb hl)
      intro y hy
      rcases List.mem_cons.mp hy with rfl | hy
      · assumption
      · exact le_trans (by assumption) (hb y hy)
    · refine List.Pairwise.cons ?_ (ih hl)
      intro y hy
      rcases mem_insertW.mp hy with rfl | hy
      · omega
      · exact hb y hy

theorem pairwise_sortW {α : Type} (l : List (Choice α)) :
    (sortW l).Pairwise (fun a b => a.Weight ≤ b.Weight) := by
  induction l with
  | nil => exact List.Pairwise.nil
  | cons c l ih => exact pairwise_insertW ih

theorem mem_sortW {α : Type} {x : Choice α} {l : List (Choice α)} :
    x ∈ sortW l ↔ x ∈ l := by
  induction l with
  | nil => simp [sortW]
  | cons c l ih =>
    simp only [sortW, mem_insertW, List.mem_cons, ih]

theorem buildTotals_length {α : Type} :
    ∀ (l : List (Choice α)) (rt : Int) (ts : List Int) (rt' : Int),
      buildTotals l rt = some (ts, rt') → ts.length = l.length := by
  intro l
  induction l with
  | nil =>
    intro rt ts rt' h
    simp only [buildTotals, Option.some.injEq, Prod.mk.injEq] at h
    rw [← h.1]
    rfl
  | cons c cs ih =>
    intro rt ts rt' h
    simp only [buildTotals] at h
    split at h
    · rcases hb : buildTotals cs rt with _ | ⟨ts₁, rt₁⟩
      · rw [hb] at h
        exact absurd h (by simp)
      · rw [hb] at h
        simp only [Option.some.injEq, Prod.mk.injEq] at h
        obtain ⟨h1, h2⟩ := h
        subst h1
        simp [ih rt ts₁ rt₁ hb]
    · split at h
      · exact absurd h (by simp)
      · split at h
        · exact absurd h (by simp)
        · rcases hb : buildTotals cs (rt + toInt64 c.Weight) with _ | ⟨ts₁, rt₁⟩
          · rw [hb] at h
            exact absurd h (by simp)
          · rw [hb] at h
            simp only [Option.some.injEq, Prod.mk.injEq] at h
            obtain ⟨h1, h2⟩ := h
            subst h1
            simp [ih (rt + toInt64 c.Weight) ts₁ rt₁ hb]

theorem newChooser_ok {α : Type} {choices : List (Choice α)} {c : Chooser α}
    (h : NewChooser choices = (some c, none)) :
    c.data = sortW choices
    ∧ buildTotals (sortW choices) 0 = some (c.totals, c.max)
    ∧ 1 ≤ c.max := by
  simp only [NewChooser] at h
  rcases hb : buildTotals (sortW choices) 0 with _ | ⟨ts, rt⟩ <;>
    simp only [hb] at h
  · exact absurd h (by simp)
  · by_cases hrt : rt < 1
    · rw [if_pos hrt] at h
      exact absurd h (by simp)
    · rw [if_neg hrt] at h
      have hc : Chooser.mk (sortW choices) ts rt = c := by
        have h1 := congrArg Prod.fst h
        simpa using h1
      rw [← hc]
      exact ⟨rfl, rfl, not_lt.mp hrt⟩

theorem buildTotals_pos_entry {α : Type} :
    ∀ (l : List (Choice α)) (rt : Int) (ts : List Int) (rt' : Int),
      buildTotals l rt = some (ts, rt') →
      (∀ ch ∈ l, -(2 : Int) ^ 63 ≤ ch.Weight ∧ ch.Weight < 2 ^ 64) →
      l.Pairwise (fun a b => a.Weight ≤ b.Weight) →
      0 ≤ rt →
      (1 ≤ rt → ∀ ch ∈ l, 1 ≤ ch.Weight) →
      ∀ (i : Nat) (ch : Choice α), 1 ≤ ts.getD i 0 → l[i]? = some ch →
        1 ≤ ch.Weight := by
  intro l
  induction l with
  | nil =>
    intro rt ts rt' hb hrange hp hrt hpos i ch hval hch
    exact absurd hch (by simp)
  | cons c cs ih =>
    intro rt ts rt' hb hrange hp hrt hpos i ch hval hch
    simp only [buildTotals] at hb
    split at hb
    · -- skipped entry: its totals slot keeps the zero value
      rcases hbc : buildTotals cs rt with _ | ⟨ts₁, rt₁⟩
      · rw [hbc] at hb
        exact absurd hb (by simp)
      · rw [hbc] at hb
        simp only [Option.some.injEq, Prod.mk.injEq] at hb
        obtain ⟨h1, h2⟩ := hb
        subst h1
        match i with
        | 0 => exact absurd hval (by simp)
        | Nat.succ n =>
          refine ih rt ts₁ rt₁ hbc (fun x hx => hrange x (List.mem_cons_of_mem c hx))
            (List.pairwise_cons.mp hp).2 hrt
            (fun h1r x hx => hpos h1r x (List.mem_cons_of_mem c hx)) n ch
            (by simpa using hval) (by simpa using hch)
    · split at hb
      · exact absurd hb (by simp)
      · split at hb
        · exact absurd hb (by simp)
        · rcases hbc : buildTotals cs (rt + toInt64 c.Weight) with _ | ⟨ts₁, rt₁⟩
          · rw [hbc] at hb
            exact absurd hb (by simp)
          · rw [hbc] at hb
            simp only [Option.some.injEq, Prod.mk.injEq] at hb
            obtain ⟨h1, h2⟩ := hb
            subst h1
            have hcw : 1 ≤ toInt64 c.Weight → 1 ≤ c.Weight := fun hh =>
              toInt64_pos_weight (hrange c (List.mem_cons_self c cs)).1
                (hrange c (List.mem_cons_self c cs)).2 hh
            match i with
            | 0 =>
              simp only [List.getD_cons_zero] at hval
              have hcc : c = ch := by simpa using hch
              rw [← hcc]
              rcases Int.lt_or_le rt 1 with hr1 | hr1
              · exact hcw (by omega)
              · exact hpos hr1 c (List.mem_cons_self c cs)
            | Nat.succ n =>
              refine ih (rt + toInt64 c.Weight) ts₁ rt₁ hbc
                (fun x hx => hrange x (List.mem_cons_of_mem c hx))
                (List.pairwise_cons.mp hp).2 (by omega) ?_ n ch
                (by simpa using hval) (by simpa using hch)
              intro h1r x hx
              rcases Int.lt_or_le rt 1 with hr1 | hr1
              · have hcpos : 1 ≤ c.Weight := hcw (by omega)
                exact le_trans hcpos ((List.pairwise_cons.mp hp).1 x hx)
              · exact hpos hr1 x (List.mem_cons_of_mem c hx)

/-- C6: an entry whose weight is zero or negative is never returned.  For
every successfully built Chooser and every draw value `r >= 1` (in
particular every `r` in `[1, total]`), whenever the search selects an entry
of the stored data, that entry's weight is at least 1. -/
theorem picked_entry_has_positive_weight {α : Type}
    (choices : List (Choice α)) (c : Chooser α)
    (hrange : ∀ ch ∈ choices, -(2 : Int) ^ 63 ≤ ch.Weight ∧ ch.Weight < 2 ^ 64)
    (hok : NewChooser choices = (some c, none))
    (r : Int) (hr1 : 1 ≤ r) (hr2 : r ≤ c.max)
    (i : Nat) (hsel : searchInts c.totals r = i)
    (ch : Choice α) (hch : c.data[i]? = some ch) :
    1 ≤ ch.Weight := by
  obtain ⟨hdata, hbuild, hmax⟩ := newChooser_ok hok
  have hlen : c.totals.length = c.data.length := by
    rw [hdata]
    exact buildTotals_length (sortW choices) 0 c.totals c.max hbuild
  have hi : i < c.data.length := by
    by_contra hcon
    rw [List.getElem?_eq_none (by omega)] at hch
    exact absurd hch (by simp)
  have hfound := searchLoop_found c.totals r 0 c.totals.length (Nat.zero_le _)
  rw [show searchLoop c.totals r 0 c.totals.length = searchInts c.totals r from rfl,
    hsel] at hfound
  rcases hfound with heq | hge
  · omega
  · have hval : 1 ≤ c.totals.getD i 0 := le_trans hr1 hge
    rw [hdata] at hch
    exact buildTotals_pos_entry (sortW choices) 0 c.totals c.max hbuild
      (fun x hx => hrange x (mem_sortW.mp hx)) (pairwise_sortW choices)
      le_rfl (by omega) i ch hval hch

/-- Witness for C6: the Chooser built from `{(10,0), (20,2)}` with `r = 1`
selects index 1, the entry `(20, 2)`, whose weight 2 is at least 1. -/
theorem picked_entry_has_positive_weight_witness :
    NewChooser [Choice.mk 10 0, Choice.mk 20 2]
      = (some ⟨[⟨10, 0⟩, ⟨20, 2⟩], [0, 2], 2⟩, none)
    ∧ searchInts [0, 2] 1 = 1
    ∧ 1 ≤ (Choice.mk (20 : Nat) 2).Weight :=
  ⟨by decide, by simp [searchInts, searchLoop],
   picked_entry_has_positive_weight [⟨10, 0⟩, ⟨20, 2⟩]
     ⟨[⟨10, 0⟩, ⟨20, 2⟩], [0, 2], 2⟩ (by decide) (by decide) 1 (by decide)
     (by decide) 1 (by simp [searchInts, searchLoop]) ⟨20, 2⟩ (by decide)⟩

theorem filter_insertW {α : Type} (c : Choice α) (l : List (Choice α)) :
    (insertW c l).filter (fun ch => 0 ≤ ch.Weight) =
      if 0 ≤ c.Weight then insertW c (l.filter (fun ch => 0 ≤ ch.Weight))
      else l.filter (fun ch => 0 ≤ ch.Weight) := by
  induction l with
  | nil =>
    by_cases hc : (0 : Int) ≤ c.Weight
    · simp [insertW, List.filter_cons, hc]
    · simp [insertW, List.filter_cons, hc]
  | cons b l ih =>
    simp only [insertW]
    by_cases hcb : c.Weight ≤ b.Weight
    · rw [if_pos hcb]
      by_cases hc : (0 : Int) ≤ c.Weight
      · by_cases hb : (0 : Int) ≤ b.Weight
        · simp [List.filter_cons, hc, hb, insertW, hcb]
        · omega
      · simp [List.filter_cons, hc]
    · rw [if_neg hcb]
      by_cases hc : (0 : Int) ≤ c.Weight
      · by_cases hb : (0 : Int) ≤ b.Weight
        · simp [List.filter_cons, hb, hc, ih, insertW, hcb]
        · simp [List.filter_cons, hb, hc, ih]
      · by_cases hb : (0 : Int) ≤ b.Weight
        · simp [List.filter_cons, hb, hc, ih]
        · simp [List.filter_cons, hb, hc, ih]

theorem sortW_filter {α : Type} (l : List (Choice α)) :
    sortW (l.filter (fun ch => 0 ≤ ch.Weight)) =
      (sortW l).filter (fun ch => 0 ≤ ch.Weight) := by
  induction l with
  | nil => rfl
  | cons c l ih =>
    simp only [sortW, List.filter_cons]
    by_cases hc : (0 : Int) ≤ c.Weight
    · simp only [hc, decide_True, if_true, sortW, ih, filter_insertW, if_pos hc]
    · simp [hc, ih, filter_insertW]

theorem filter_neg_nil_of_nonneg {α : Type} (l : List (Choice α))
    (h : ∀ ch ∈ l, 0 ≤ ch.Weight) :
    l.filter (fun ch => ch.Weight < 0) = [] := by
  induction l with
  | nil => rfl
  | cons c l ih =>
    have hc : ¬c.Weight < 0 := not_lt.mpr (h c (List.mem_cons_self c l))
    simp only [List.filter_cons, hc, decide_False, if_false]
    exact ih (fun ch hch => h ch (List.mem_cons_of_mem c hch))

theorem filter_nonneg_self_of_nonneg {α : Type} (l : List (Choice α))
    (h : ∀ ch ∈ l, 0 ≤ ch.Weight) :
    l.filter (fun ch => 0 ≤ ch.Weight) = l := by
  induction l with
  | nil => rfl
  | cons c l ih =>
    have hc : (0 : Int) ≤ c.Weight := h c (List.mem_cons_self c l)
    simp only [List.filter_cons, hc, decide_True, if_true]
    rw [ih (fun ch hch => h ch (List.mem_cons_of_mem c hch))]

theorem sorted_split_nonneg {α : Type} (l : List (Choice α))
    (hp : l.Pairwise (fun a b => a.Weight ≤ b.Weight)) :
    l = l.filter (fun ch => ch.Weight < 0) ++ l.filter (fun ch => 0 ≤ ch.Weight) := by
  induction l with
  | nil => rfl
  | cons c l ih =>
    rcases List.pairwise_cons.mp hp with ⟨hc, hl⟩
    by_cases h0 : (0 : Int) ≤ c.Weight
    · have hall : ∀ ch ∈ c :: l, 0 ≤ ch.Weight := by
        intro ch hch
        rcases List.mem_cons.mp hch with rfl | hch
        · exact h0
        · exact le_trans h0 (hc ch hch)
      rw [filter_neg_nil_of_nonneg _ hall, filter_nonneg_self_of_nonneg _ hall]
      rfl
    · have hcneg : c.Weight < 0 := not_le.mp h0
      conv_lhs => rw [ih hl]
      simp [List.filter_cons, hcneg, h0]

theorem buildTotals_append_neg {α : Type} (A B : List (Choice α)) (rt : Int)
    (hA : ∀ ch ∈ A, toInt64 ch.Weight < 0) :
    buildTotals (A ++ B) rt =
      (buildTotals B rt).map (fun p => (List.replicate A.length 0 ++ p.1, p.2)) := by
  induction A with
  | nil =>
    rcases hb : buildTotals B rt with _ | ⟨ts, r⟩ <;> simp [hb]
  | cons a A ih =>
    have ha : toInt64 a.Weight < 0 := hA a (List.mem_cons_self a A)
    have ih' := ih (fun ch hch => hA ch (List.mem_cons_of_mem a hch))
    rw [show (a :: A) ++ B = a :: (A ++ B) from rfl]
    simp only [buildTotals, if_pos ha]
    rw [ih']
    rcases hb : buildTotals B rt with _ | ⟨ts, r⟩ <;> simp [hb, List.replicate_succ]

theorem buildTotals_chain {α : Type} :
    ∀ (l : List (Choice α)) (rt : Int) (ts : List Int) (rt' : Int),
      buildTotals l rt = some (ts, rt') →
      (∀ ch ∈ l, 0 ≤ toInt64 ch.Weight) →
      List.Chain (· ≤ ·) rt ts ∧ rt ≤ rt' := by
  intro l
  induction l with
  | nil =>
    intro rt ts rt' hb hnn
    simp only [buildTotals, Option.some.injEq, Prod.mk.injEq] at hb
    rw [← hb.1, ← hb.2]
    exact ⟨List.Chain.nil, le_rfl⟩
  | cons c cs ih =>
    intro rt ts rt' hb hnn
    have hc : 0 ≤ toInt64 c.Weight := hnn c (List.mem_cons_self c cs)
    simp only [buildTotals, if_neg (not_lt.mpr hc)] at hb
    split at hb
    · exact absurd hb (by simp)
    · split at hb
      · exact absurd hb (by simp)
      · rcases hbc : buildTotals cs (rt + toInt64 c.Weight) with _ | ⟨ts₁, rt₁⟩
        · rw [hbc] at hb
          exact absurd hb (by simp)
        · rw [hbc] at hb
          simp only [Option.some.injEq, Prod.mk.injEq] at hb
          obtain ⟨h1, h2⟩ := hb
          subst h1
          subst h2
          obtain ⟨hch, hle⟩ := ih (rt + toInt64 c.Weight) ts₁ rt₁ hbc
            (fun ch hch => hnn ch (List.mem_cons_of_mem c hch))
          exact ⟨List.Chain.cons (by omega) hch, by omega⟩

theorem buildTotals_last {α : Type} :
    ∀ (l : List (Choice α)) (rt : Int) (ts : List Int) (rt' : Int),
      buildTotals l rt = some (ts, rt') →
      (∀ ch ∈ l, 0 ≤ toInt64 ch.Weight) →
      l ≠ [] → ts.getD (ts.length - 1) 0 = rt' := by
  intro l
  induction l with
  | nil =>
    intro rt ts rt' hb hnn hne
    exact absurd rfl hne
  | cons c cs ih =>
    intro rt ts rt' hb hnn hne
    have hc : 0 ≤ toInt64 c.Weight := hnn c (List.mem_cons_self c cs)
    simp only [buildTotals, if_neg (not_lt.mpr hc)] at hb
    split at hb
    · exact absurd hb (by simp)
    · split at hb
      · exact absurd hb (by simp)
      · rcases hbc : buildTotals cs (rt + toInt64 c.Weight) with _ | ⟨ts₁, rt₁⟩
        · rw [hbc] at hb
          exact absurd hb (by simp)
        · rw [hbc] at hb
          simp only [Option.some.injEq, Prod.mk.injEq] at hb
          obtain ⟨h1, h2⟩ := hb
          subst h1
          subst h2
          match cs, hbc with
          | [], hbc =>
            simp only [buildTotals, Option.some.injEq, Prod.mk.injEq] at hbc
            rw [← hbc.1, ← hbc.2]
            rfl
          | c₂ :: cs₂, hbc =>
            have hlen : ts₁.length = (c₂ :: cs₂).length :=
              buildTotals_length (c₂ :: cs₂) (rt + toInt64 c.Weight) ts₁ rt₁ hbc
            have hlen1 : 1 ≤ ts₁.length := by
              rw [hlen]
              simp
            have hidx : ((rt + toInt64 c.Weight) :: ts₁).length - 1
                = (ts₁.length - 1) + 1 := by
              simp only [List.length_cons]
              omega
            rw [hidx, List.getD_cons_succ]
            exact ih (rt + toInt64 c.Weight) ts₁ rt₁ hbc
              (fun ch hch => hnn ch (List.mem_cons_of_mem c hch)) (by simp)

theorem chain_getD_mono (z : Int) (ts : List Int)
    (h : List.Chain (· ≤ ·) z ts) :
    (∀ m, m < ts.length → z ≤ ts.getD m 0)
    ∧ (∀ p q, p ≤ q → q < ts.length → ts.getD p 0 ≤ ts.getD q 0) := by
  induction ts generalizing z with
  | nil =>
    exact ⟨fun m hm => absurd hm (by simp), fun p q hpq hq => absurd hq (by simp)⟩
  | cons t ts ih =>
    rcases List.chain_cons.mp h with ⟨hzt, hch⟩
    obtain ⟨hall, hmono⟩ := ih t hch
    constructor
    · intro m hm
      match m with
      | 0 => exact hzt
      | Nat.succ n =>
        rw [List.getD_cons_succ]
        exact le_trans hzt (hall n (by simpa using hm))
    · intro p q hpq hq
      match p, q with
      | 0, 0 => exact le_rfl
      | 0, Nat.succ n =>
        rw [List.getD_cons_zero, List.getD_cons_succ]
        exact hall n (by simpa using hq)
      | Nat.succ m, Nat.succ n =>
        rw [List.getD_cons_succ, List.getD_cons_succ]
        exact hmono m n (by omega) (by simpa using hq)

theorem getD_replicate_zero : ∀ (k m : Nat), (List.replicate k (0 : Int)).getD m 0 = 0 := by
  intro k
  induction k with
  | zero => intro m; simp
  | succ n ih =>
    intro m
    match m with
    | 0 => simp [List.replicate_succ]
    | Nat.succ m' => simp [List.replicate_succ, List.getD_cons_succ, ih m']

theorem searchInts_lt_len (ts : List Int) (r : Int)
    (hmono : ∀ p q : Nat, p ≤ q → q < ts.length → ts.getD p 0 ≤ ts.getD q 0)
    (hne : ts.length ≠ 0)
    (hrM : r ≤ ts.getD (ts.length - 1) 0) :
    searchInts ts r < ts.length := by
  obtain ⟨hle, hbelow, hfound⟩ := searchInts_spec ts r hmono
  by_contra hcon
  have := hbelow (ts.length - 1) (by omega)
  omega

theorem getD_replicate_append (k : Nat) (ts : List Int) (m : Nat) :
    (List.replicate k (0 : Int) ++ ts).getD m 0 =
      if m < k then 0 else ts.getD (m - k) 0 := by
  rcases Nat.lt_or_ge m k with hm | hm
  · rw [List.getD_append (List.replicate k 0) ts 0 m (by simpa using hm),
      getD_replicate_zero, if_pos hm]
  · rw [List.getD_append_right (List.replicate k 0) ts 0 m (by simpa using hm),
      if_neg (not_lt.mpr hm)]
    simp

theorem searchInts_append_zeros (k : Nat) (ts : List Int) (r : Int) (hr : 1 ≤ r)
    (hmono : ∀ p q : Nat, p ≤ q → q < ts.length → ts.getD p 0 ≤ ts.getD q 0)
    (hnn : ∀ m, m < ts.length → 0 ≤ ts.getD m 0) :
    searchInts (List.replicate k 0 ++ ts) r = k + searchInts ts r := by
  have hAlen : (List.replicate k (0 : Int) ++ ts).length = k + ts.length := by
    simp
  have hAmono : ∀ p q : Nat, p ≤ q → q < (List.replicate k (0 : Int) ++ ts).length →
      (List.replicate k (0 : Int) ++ ts).getD p 0
        ≤ (List.replicate k (0 : Int) ++ ts).getD q 0 := by
    intro p q hpq hq
    rw [hAlen] at hq
    rw [getD_replicate_append, getD_replicate_append]
    by_cases hpk : p < k
    · rw [if_pos hpk]
      by_cases hqk : q < k
      · rw [if_pos hqk]
      · rw [if_neg hqk]
        exact hnn (q - k) (by omega)
    · rw [if_neg hpk, if_neg (show ¬q < k by omega)]
      exact hmono (p - k) (q - k) (by omega) (by omega)
  obtain ⟨hle, hbelow, hfound⟩ := searchInts_spec ts r hmono
  obtain ⟨hle', hbelow', hfound'⟩ :=
    searchInts_spec (List.replicate k 0 ++ ts) r hAmono
  refine lower_bound_unique (List.replicate k 0 ++ ts) r _ _
    ⟨hle', hbelow', hfound'⟩ ⟨?_, ?_, ?_⟩
  · rw [hAlen]
    omega
  · intro m hm
    rw [getD_replicate_append]
    by_cases hmk : m < k
    · rw [if_pos hmk]
      omega
    · rw [if_neg hmk]
      exact hbelow (m - k) (by omega)
  · intro hlt
    rw [hAlen] at hlt
    rw [getD_replicate_append, if_neg (show ¬k + searchInts ts r < k by omega)]
    have : k + searchInts ts r - k = searchInts ts r := by omega
    rw [this]
    exact hfound (by omega)

/-- C8: negative-weight entries are skipped, not errored on, and are inert.
For a signed weight type (all weights in the int64 range, as is the case
whenever a negative weight exists), a successfully built Chooser retains
the negative entries in its data, the Chooser built from the input with
the negative entries removed also builds with the same total, and for
every draw value `r` in `[1, total]` both draws return the same item. -/
theorem negative_weights_are_inert {α : Type}
    (choices : List (Choice α)) (c₁ : Chooser α)
    (hrange : ∀ ch ∈ choices, -(2 : Int) ^ 63 ≤ ch.Weight ∧ ch.Weight < 2 ^ 63)
    (hneg : ∃ ch ∈ choices, ch.Weight < 0)
    (hok : NewChooser choices = (some c₁, none)) :
    (∀ ch ∈ choices, ch.Weight < 0 → ch ∈ c₁.data)
    ∧ ∃ c₂ : Chooser α,
        NewChooser (choices.filter (fun ch => 0 ≤ ch.Weight)) = (some c₂, none)
        ∧ c₂.max = c₁.max
        ∧ ∀ r : Int, 1 ≤ r → r ≤ c₁.max →
            Pick c₁ r = Pick c₂ r ∧ (Pick c₁ r).isSome = true := by
  obtain ⟨hdata, hbuild, hmax⟩ := newChooser_ok hok
  have hsorted := pairwise_sortW choices
  have hsplit := sorted_split_nonneg (sortW choices) hsorted
  have hrangeS : ∀ ch ∈ sortW choices,
      -(2 : Int) ^ 63 ≤ ch.Weight ∧ ch.Weight < 2 ^ 63 :=
    fun ch hch => hrange ch (mem_sortW.mp hch)
  have hN : ∀ ch ∈ (sortW choices).filter (fun ch => ch.Weight < 0),
      toInt64 ch.Weight < 0 := by
    intro ch hch
    rw [List.mem_filter] at hch
    have hr := hrangeS ch hch.1
    have hlt : ch.Weight < 0 := by simpa using hch.2
    rw [toInt64_eq_self hr.1 (by omega)]
    exact hlt
  have hP : ∀ ch ∈ (sortW choices).filter (fun ch => 0 ≤ ch.Weight),
      0 ≤ toInt64 ch.Weight := by
    intro ch hch
    rw [List.mem_filter] at hch
    have hr := hrangeS ch hch.1
    have hle : (0 : Int) ≤ ch.Weight := by simpa using hch.2
    rw [toInt64_eq_self hr.1 (by omega)]
    exact hle
  rw [hsplit, buildTotals_append_neg _ _ 0 hN] at hbuild
  rcases hbP : buildTotals
      ((sortW choices).filter (fun ch => 0 ≤ ch.Weight)) 0 with _ | ⟨ts₂, rt₂⟩
  · rw [hbP] at hbuild
    exact absurd hbuild (by simp)
  · rw [hbP] at hbuild
    simp only [Option.map_some', Option.some.injEq, Prod.mk.injEq] at hbuild
    obtain ⟨htot, hrt₂⟩ := hbuild
    obtain ⟨hch, h0le⟩ := buildTotals_chain _ 0 ts₂ rt₂ hbP hP
    obtain ⟨hnn, hmono⟩ := chain_getD_mono 0 ts₂ hch
    have hlenP := buildTotals_length _ 0 ts₂ rt₂ hbP
    have hPne : (sortW choices).filter (fun ch => 0 ≤ ch.Weight) ≠ [] := by
      intro hPnil
      rw [hPnil] at hbP
      simp only [buildTotals, Option.some.injEq, Prod.mk.injEq] at hbP
      omega
    have hlast := buildTotals_last _ 0 ts₂ rt₂ hbP hP hPne
    have hrt₂max : 1 ≤ rt₂ := by omega
    have hNewF : NewChooser (choices.filter (fun ch => 0 ≤ ch.Weight)) =
        (some ⟨(sortW choices).filter (fun ch => 0 ≤ ch.Weight), ts₂, c₁.max⟩,
          none) := by
      simp only [NewChooser, sortW_filter, hbP]
      rw [if_neg (not_lt.mpr hrt₂max), hrt₂]
    refine ⟨?_, ⟨⟨(sortW choices).filter (fun ch => 0 ≤ ch.Weight), ts₂, c₁.max⟩,
      hNewF, rfl, ?_⟩⟩
    · intro ch hch hneg'
      rw [hdata]
      exact mem_sortW.mpr hch
    · intro r hr1 hr2
      have hlenne : ts₂.length ≠ 0 := by
        rw [hlenP]
        intro h0
        exact hPne (List.length_eq_zero.mp h0)
      have hkts : searchInts ts₂ r < ts₂.length :=
        searchInts_lt_len ts₂ r hmono hlenne (by rw [hlast]; omega)
      have hoffset : searchInts c₁.totals r =
          ((sortW choices).filter (fun ch => ch.Weight < 0)).length
            + searchInts ts₂ r := by
        rw [← htot]
        exact searchInts_append_zeros _ ts₂ r hr1 hmono hnn
      have hidx : ((sortW choices).filter (fun ch => ch.Weight < 0)).length
          + searchInts ts₂ r
          - ((sortW choices).filter (fun ch => ch.Weight < 0)).length
          = searchInts ts₂ r := by omega
      have hdataNP : c₁.data =
          (sortW choices).filter (fun ch => ch.Weight < 0)
            ++ (sortW choices).filter (fun ch => 0 ≤ ch.Weight) := by
        rw [hdata]
        exact hsplit
      have hget : c₁.data[searchInts c₁.totals r]? =
          ((sortW choices).filter (fun ch => 0 ≤ ch.Weight))[searchInts ts₂ r]? := by
        rw [hoffset, hdataNP, List.getElem?_append_right (by omega), hidx]
      have hlt2 : searchInts ts₂ r
          < ((sortW choices).filter (fun ch => 0 ≤ ch.Weight)).length := by
        omega
      have hsome := List.getElem?_eq_getElem hlt2
      constructor
      · simp only [Pick, hget]
      · simp only [Pick, hget, hsome, Option.map_some', Option.isSome_some]

/-- Witness for C8 at signed choices `{(7,-2), (8,3)}`. -/
theorem negative_weights_are_inert_witness :
    (∀ ch ∈ [Choice.mk (7 : Nat) (-2), Choice.mk 8 3], ch.Weight < 0 →
      ch ∈ (⟨[⟨7, -2⟩, ⟨8, 3⟩], [0, 3], 3⟩ : Chooser Nat).data)
    ∧ ∃ c₂ : Chooser Nat,
        NewChooser ([Choice.mk (7 : Nat) (-2), Choice.mk 8 3].filter
            (fun ch => 0 ≤ ch.Weight)) = (some c₂, none)
        ∧ c₂.max = (⟨[⟨7, -2⟩, ⟨8, 3⟩], [0, 3], 3⟩ : Chooser Nat).max
        ∧ ∀ r : Int, 1 ≤ r →
            r ≤ (⟨[⟨7, -2⟩, ⟨8, 3⟩], [0, 3], 3⟩ : Chooser Nat).max →
            Pick (⟨[⟨7, -2⟩, ⟨8, 3⟩], [0, 3], 3⟩ : Chooser Nat) r = Pick c₂ r
            ∧ (Pick (⟨[⟨7, -2⟩, ⟨8, 3⟩], [0, 3], 3⟩ : Chooser Nat) r).isSome
              = true :=
  negative_weights_are_inert [⟨7, -2⟩, ⟨8, 3⟩] ⟨[⟨7, -2⟩, ⟨8, 3⟩], [0, 3], 3⟩
    (by decide) (by decide) (by decide)

end Weightedrand
